import Mathlib

/-!
Verification development for the jsonfs repository: a FUSE filesystem that
projects a JSON document onto a directory tree.  The repository contains two
filesystem variants that the specification's claims reference:

* the path-table variant (`src/main.rs`, duplicated in `src/jsonfs.rs`),
  whose registry maps inode ids to slash-joined path strings, and
* the pinned variant (`src/pinjsonfs.rs`), whose inode ids are the raw
  memory addresses of `serde_json::Value` nodes.

The definitions below are shallow embeddings of the corresponding Rust
functions.  Path strings of the path-table variant are represented as their
slash-split component lists; this coincides with the source's
`split('/').filter(|s| !s.is_empty())` treatment whenever names and object
keys contain no slash (FUSE never passes a name containing `/`; the sanity
predicate `wfDoc` records the corresponding condition on document keys).
-/

set_option maxHeartbeats 1000000

namespace JsonFS

/-- File kinds as reported through FUSE attributes (`fuser::FileType`);
only the two kinds the source ever produces are represented. -/
inductive FileKind where
  | directory
  | regularFile
deriving DecidableEq, Repr

/-- Shallow embedding of `serde_json::Value`.  Numbers are modelled as
integers: the claims under study only exercise integer literals, and the
only numbers the source ever constructs come from `u64` parses. -/
inductive JValue where
  | null
  | bool (b : Bool)
  | num (n : Int)
  | str (s : String)
  | obj (fields : List (String × JValue))
  | arr (elems : List JValue)

mutual

/-- Decidable equality on values (spelled out because `deriving` does not
handle the nested lists). -/
def decEqJ : (a b : JValue) → Decidable (a = b)
  | .null, .null => isTrue rfl
  | .bool a, .bool b =>
    if h : a = b then isTrue (congrArg JValue.bool h)
    else isFalse (fun hh => h (JValue.noConfusion hh id))
  | .num a, .num b =>
    if h : a = b then isTrue (congrArg JValue.num h)
    else isFalse (fun hh => h (JValue.noConfusion hh id))
  | .str a, .str b =>
    if h : a = b then isTrue (congrArg JValue.str h)
    else isFalse (fun hh => h (JValue.noConfusion hh id))
  | .obj a, .obj b =>
    match decEqF a b with
    | isTrue h => isTrue (congrArg JValue.obj h)
    | isFalse h => isFalse (fun hh => h (JValue.noConfusion hh id))
  | .arr a, .arr b =>
    match decEqE a b with
    | isTrue h => isTrue (congrArg JValue.arr h)
    | isFalse h => isFalse (fun hh => h (JValue.noConfusion hh id))
  | .null, .bool _ => isFalse nofun
  | .null, .num _ => isFalse nofun
  | .null, .str _ => isFalse nofun
  | .null, .obj _ => isFalse nofun
  | .null, .arr _ => isFalse nofun
  | .bool _, .null => isFalse nofun
  | .bool _, .num _ => isFalse nofun
  | .bool _, .str _ => isFalse nofun
  | .bool _, .obj _ => isFalse nofun
  | .bool _, .arr _ => isFalse nofun
  | .num _, .null => isFalse nofun
  | .num _, .bool _ => isFalse nofun
  | .num _, .str _ => isFalse nofun
  | .num _, .obj _ => isFalse nofun
  | .num _, .arr _ => isFalse nofun
  | .str _, .null => isFalse nofun
  | .str _, .bool _ => isFalse nofun
  | .str _, .num _ => isFalse nofun
  | .str _, .obj _ => isFalse nofun
  | .str _, .arr _ => isFalse nofun
  | .obj _, .null => isFalse nofun
  | .obj _, .bool _ => isFalse nofun
  | .obj _, .num _ => isFalse nofun
  | .obj _, .str _ => isFalse nofun
  | .obj _, .arr _ => isFalse nofun
  | .arr _, .null => isFalse nofun
  | .arr _, .bool _ => isFalse nofun
  | .arr _, .num _ => isFalse nofun
  | .arr _, .str _ => isFalse nofun
  | .arr _, .obj _ => isFalse nofun

/-- Decidable equality on field lists. -/
def decEqF : (a b : List (String × JValue)) → Decidable (a = b)
  | [], [] => isTrue rfl
  | [], _ :: _ => isFalse nofun
  | _ :: _, [] => isFalse nofun
  | (k, v) :: fs, (k', v') :: gs =>
    if hk : k = k' then
      match decEqJ v v' with
      | isTrue hv =>
        match decEqF fs gs with
        | isTrue hfs => isTrue (by rw [hk, hv, hfs])
        | isFalse hfs => isFalse (by intro hh; injection hh with h1 h2; exact hfs h2)
      | isFalse hv =>
        isFalse (by
          intro hh; injection hh with h1 h2
          injection h1 with hhk hhv
          exact hv hhv)
    else
      isFalse (by
        intro hh; injection hh with h1 h2
        injection h1 with hhk hhv
        exact hk hhk)

/-- Decidable equality on element lists. -/
def decEqE : (a b : List JValue) → Decidable (a = b)
  | [], [] => isTrue rfl
  | [], _ :: _ => isFalse nofun
  | _ :: _, [] => isFalse nofun
  | v :: vs, w :: ws =>
    match decEqJ v w with
    | isTrue hv =>
      match decEqE vs ws with
      | isTrue hvs => isTrue (by rw [hv, hvs])
      | isFalse hvs => isFalse (by intro hh; injection hh with h1 h2; exact hvs h2)
    | isFalse hv => isFalse (by intro hh; injection hh with h1 h2; exact hv h1)

end

instance : DecidableEq JValue := decEqJ

/-- Lookup of an object key, embedding `serde_json::Map::get`: the first
field with a matching key. -/
def lookupField (fields : List (String × JValue)) (k : String) : Option JValue :=
  match fields with
  | [] => none
  | (k', v) :: rest => if k' = k then some v else lookupField rest k

/-- Replacement of the value stored under an object key (first match),
embedding `serde_json::Map::get_mut` followed by assignment. -/
def setField (fields : List (String × JValue)) (k : String) (w : JValue) :
    List (String × JValue) :=
  match fields with
  | [] => []
  | (k', v) :: rest => if k' = k then (k', w) :: rest else (k', v) :: setField rest k w

/-- Digit test for ASCII decimal digits, as accepted by Rust's integer
`from_str`. -/
def isDigit (c : Char) : Bool :=
  '0' ≤ c && c ≤ '9'

/-- Numeric value of an ASCII digit. -/
def digitVal (c : Char) : Nat :=
  c.toNat - '0'.toNat

/-- Accumulated value of a most-significant-first digit string. -/
def digitsVal (cs : List Char) : Nat :=
  cs.foldl (fun a c => 10 * a + digitVal c) 0

/-- Parse of a nonempty all-digit character list. -/
def parseDigits (cs : List Char) : Option Nat :=
  if cs = [] then none
  else if cs.all isDigit then some (digitsVal cs) else none

/-- Removal of a single leading plus sign, as `u64::from_str` permits. -/
def stripPlus (cs : List Char) : List Char :=
  match cs with
  | [] => []
  | c :: rest => if c = '+' then rest else c :: rest

/-- Embedding of Rust's `str::parse::<u64>` (also used for
`parse::<usize>`, identical on the 64-bit targets the source runs on):
an optional leading `+`, then a nonempty run of ASCII digits, rejected on
overflow past `2^64 - 1`. -/
def parseU64 (s : String) : Option Nat :=
  match parseDigits (stripPlus s.data) with
  | some n => if n < 2 ^ 64 then some n else none
  | none => none

/-- Decimal digit character. -/
def digitChar (n : Nat) : Char :=
  Char.ofNat ('0'.toNat + n)

/-- Fuel-indexed most-significant-first decimal digits of a natural
number; `fuel` bounds the recursion depth and any `fuel > n` is enough. -/
def natDigitsAux : Nat → Nat → List Char
  | 0, _ => []
  | fuel + 1, n =>
    if n < 10 then [digitChar n]
    else natDigitsAux fuel (n / 10) ++ [digitChar (n % 10)]

/-- Embedding of Rust's `u64`/`usize` `to_string`: plain decimal. -/
def natToString (n : Nat) : String :=
  String.mk (natDigitsAux (n + 1) n)

/-- Embedding of `i64`/`serde_json::Number` display for integers. -/
def intRepr (n : Int) : String :=
  match n with
  | .ofNat m => natToString m
  | .negSucc m => "-" ++ natToString (m + 1)

/-- Number of bytes of the UTF-8 encoding of a character. -/
def charUtf8Size (c : Char) : Nat :=
  if c.toNat < 0x80 then 1
  else if c.toNat < 0x800 then 2
  else if c.toNat < 0x10000 then 3
  else 4

/-- Byte length of a string, embedding Rust's `str::len`. -/
def byteLen (s : String) : Nat :=
  s.data.foldl (fun n c => n + charUtf8Size c) 0

/-- UTF-8 encoding of one character as a byte list. -/
def charUtf8Bytes (c : Char) : List Nat :=
  let n := c.toNat
  if n < 0x80 then [n]
  else if n < 0x800 then [0xC0 + n / 0x40, 0x80 + n % 0x40]
  else if n < 0x10000 then
    [0xE0 + n / 0x1000, 0x80 + n / 0x40 % 0x40, 0x80 + n % 0x40]
  else
    [0xF0 + n / 0x40000, 0x80 + n / 0x1000 % 0x40, 0x80 + n / 0x40 % 0x40,
      0x80 + n % 0x40]

/-- UTF-8 byte sequence of a string, embedding `str::as_bytes`. -/
def utf8Bytes (s : String) : List Nat :=
  (s.data.map charUtf8Bytes).flatten

/-- Prefix of a string comprising exactly `n` bytes, when `n` is a valid
character boundary not exceeding the length; `none` models the panics of
`String::replace_range` on an out-of-range or mid-character index. -/
def takeBytesAux : List Char → Nat → Option (List Char)
  | _, 0 => some []
  | [], _ + 1 => none
  | c :: cs, n + 1 =>
    if charUtf8Size c ≤ n + 1 then
      (takeBytesAux cs (n + 1 - charUtf8Size c)).map (c :: ·)
    else none

/-- String prefix of `n` bytes (see `takeBytesAux`). -/
def takeBytes (s : String) (n : Nat) : Option String :=
  (takeBytesAux s.data n).map String.mk

/-- Two lowercase hex digits, used for control-character escapes. -/
def hex2 (n : Nat) : String :=
  let d := fun m => if m < 10 then digitChar m else Char.ofNat ('a'.toNat + (m - 10))
  String.mk [d (n / 16 % 16), d (n % 16)]

/-- JSON string escaping as performed by `serde_json`'s compact
serializer. -/
def escChar (c : Char) : String :=
  if c = '"' then "\\\""
  else if c = '\\' then "\\\\"
  else if c = Char.ofNat 8 then "\\b"
  else if c = Char.ofNat 9 then "\\t"
  else if c = Char.ofNat 10 then "\\n"
  else if c = Char.ofNat 12 then "\\f"
  else if c = Char.ofNat 13 then "\\r"
  else if c.toNat < 0x20 then "\\u00" ++ hex2 c.toNat
  else String.mk [c]

/-- Quoted and escaped JSON string literal. -/
def jsonQuote (s : String) : String :=
  "\"" ++ String.join (s.data.map escChar) ++ "\""

mutual

/-- Compact serialization of a JSON value, embedding
`serde_json::Value::to_string`. -/
def toJsonString : JValue → String
  | .null => "null"
  | .bool b => cond b "true" "false"
  | .num n => intRepr n
  | .str s => jsonQuote s
  | .arr es => "[" ++ jsonArrBody es ++ "]"
  | .obj fs => "\x7b" ++ jsonObjBody fs ++ "\x7d"

/-- Comma-separated serialization of array elements. -/
def jsonArrBody : List JValue → String
  | [] => ""
  | [v] => toJsonString v
  | v :: vs => toJsonString v ++ "," ++ jsonArrBody vs

/-- Comma-separated serialization of object fields. -/
def jsonObjBody : List (String × JValue) → String
  | [] => ""
  | [(k, v)] => jsonQuote k ++ ":" ++ toJsonString v
  | (k, v) :: fs => jsonQuote k ++ ":" ++ toJsonString v ++ "," ++ jsonObjBody fs

end

/-- File kind synthesized by `create_attr`: directories for containers,
regular files for scalars. -/
def attrKind (v : JValue) : FileKind :=
  match v with
  | .obj _ | .arr _ => .directory
  | _ => .regularFile

/-- Size synthesized by `create_attr`: byte length of the string itself
for strings, of the compact serialization otherwise. -/
def attrSize (v : JValue) : Nat :=
  match v with
  | .str s => byteLen s
  | _ => byteLen (toJsonString v)

/-- Reply attributes; the constant fields (times, permissions, owner) of
the source's `FileAttr` are omitted as they never vary. -/
structure FileAttr where
  ino : Nat
  size : Nat
  kind : FileKind
deriving DecidableEq, Repr

/-- Embedding of `JsonFS::create_attr` from the path-table variant (the
pinned variant's copy is identical). -/
def create_attr (ino : Nat) (v : JValue) : FileAttr :=
  { ino := ino, size := attrSize v, kind := attrKind v }

/-- One step of path resolution: an object resolves a key by map lookup,
an array parses the component as a `usize` index, a scalar resolves
nothing.  This is the loop body shared by `get_json_at_path` and
`lookup_children`. -/
def resolveComp (v : JValue) (k : String) : Option JValue :=
  match v with
  | .obj fields => lookupField fields k
  | .arr elems => (parseU64 k).bind fun i => elems.get? i
  | _ => none

/-- Embedding of `get_json_at_path`: walk the path components from the
root, skipping empty components exactly as
`split('/').filter(|s| !s.is_empty())` does. -/
def resolvePath (v : JValue) : List String → Option JValue
  | [] => some v
  | k :: ks =>
    if k = "" then resolvePath v ks
    else (resolveComp v k).bind fun c => resolvePath c ks

/-- Slash-freedom of a string; FUSE names satisfy this, and `wfDoc`
demands it of object keys so that component lists represent the
path-table variant's slash-joined strings faithfully. -/
def noSlash (s : String) : Bool :=
  !s.data.contains '/'

mutual

/-- Sanity of a mounted document: object keys contain no slash and array
lengths fit in `usize`, both automatic for any document a real mount can
produce. -/
def wfDoc : JValue → Bool
  | .obj fs => wfFields fs
  | .arr es => decide (es.length < 2 ^ 64) && wfElems es
  | _ => true

/-- Field-list part of `wfDoc`. -/
def wfFields : List (String × JValue) → Bool
  | [] => true
  | (k, v) :: fs => noSlash k && wfDoc v && wfFields fs

/-- Element-list part of `wfDoc`. -/
def wfElems : List JValue → Bool
  | [] => true
  | v :: vs => wfDoc v && wfElems vs

end

/-! State and operations of the path-table variant (`src/main.rs`). -/

/-- Reserved root inode id (`fuser::FUSE_ROOT_ID`). -/
def FUSE_ROOT_ID : Nat := 1

/-- State of the path-table variant's `JsonFS`: the document, the
id-to-path registry (a `HashMap<u64, Rc<String>>` in the source,
represented as an association list with most recent insertion first), and
the last minted id.  Paths are stored as slash-split component lists. -/
structure MainFS where
  json : JValue
  inodes : List (Nat × List String)
  last_inode : Nat

/-- Freshly mounted state, embedding `JsonFS::new`: only the root id is
bound, to the empty path. -/
def mainNew (json : JValue) : MainFS :=
  { json := json, inodes := [(FUSE_ROOT_ID, [])], last_inode := FUSE_ROOT_ID }

/-- Embedding of `JsonFS::allocate_inode`: unconditionally mint
`last_inode + 1` and bind it to the given path. -/
def allocate_inode (fs : MainFS) (path : List String) : Nat × MainFS :=
  (fs.last_inode + 1,
    { fs with last_inode := fs.last_inode + 1
              inodes := (fs.last_inode + 1, path) :: fs.inodes })

/-- Registry lookup (`self.inodes.get(&ino)`). -/
def lookupId (inodes : List (Nat × List String)) (i : Nat) : Option (List String) :=
  (inodes.find? (fun e => e.1 = i)).map (·.2)

/-- Path currently bound to an id, if the id is alive. -/
def mainLocOf (fs : MainFS) (i : Nat) : Option (List String) :=
  lookupId fs.inodes i

/-- Outcome of a `lookup` request in the path-table variant.  The
`panicked` outcome records that the source called `.unwrap()` on a
missing registry entry, aborting the process. -/
inductive LookupResult where
  | entry (attr : FileAttr)
  | enoent
  | panicked
deriving DecidableEq, Repr

/-- Embedding of `JsonFS::lookup` of the path-table variant: panic on an
unregistered parent id, resolve `parent_path/name`, allocate a fresh id
on success, reply `ENOENT` otherwise. -/
def mainLookup (fs : MainFS) (parent : Nat) (name : String) : LookupResult × MainFS :=
  match lookupId fs.inodes parent with
  | none => (.panicked, fs)
  | some ppath =>
    match resolvePath fs.json (ppath ++ [name]) with
    | some v =>
      (.entry (create_attr (allocate_inode fs (ppath ++ [name])).1 v),
        (allocate_inode fs (ppath ++ [name])).2)
    | none => (.enoent, fs)

/-- Directory entry as pushed to the FUSE reply by the path-table
variant's `readdir`. -/
structure DirEntry where
  ino : Nat
  kind : FileKind
  name : String
deriving DecidableEq, Repr

/-- Child names a readdir of this value enumerates: object keys in
document order, array indices in ascending numeric order, nothing for
scalars. -/
def childNames : JValue → List String
  | .obj fields => fields.map (·.1)
  | .arr elems => (List.range elems.length).map natToString
  | _ => []

/-- Allocation loop of the path-table `readdir`: every child gets a
freshly minted id bound to `path/child`, and every child entry carries
`FileType::RegularFile` regardless of the child's actual kind. -/
def allocChildren (fs : MainFS) (path : List String) :
    List String → List DirEntry × MainFS
  | [] => ([], fs)
  | n :: ns =>
    (⟨(allocate_inode fs (path ++ [n])).1, .regularFile, n⟩ ::
        (allocChildren (allocate_inode fs (path ++ [n])).2 path ns).1,
      (allocChildren (allocate_inode fs (path ++ [n])).2 path ns).2)

/-- Embedding of the path-table variant's `readdir`: synthesizes `.` and
`..`, allocates an id per child, then skips `offset` entries for the
reply.  Unknown ids and unresolvable paths reply with an empty listing. -/
def mainReaddir (fs : MainFS) (ino : Nat) (offset : Nat) : List DirEntry × MainFS :=
  match lookupId fs.inodes ino with
  | none => ([], fs)
  | some path =>
    match resolvePath fs.json path with
    | none => ([], fs)
    | some v =>
      ((⟨ino, .directory, "."⟩ :: ⟨ino, .directory, ".."⟩ ::
          (allocChildren fs path (childNames v)).1).drop offset,
        (allocChildren fs path (childNames v)).2)

/-- Outcome of a `read` request; `panicked` records an out-of-bounds byte
slice aborting the process. -/
inductive ReadResult where
  | data (bytes : List Nat)
  | enoent
  | panicked
deriving DecidableEq, Repr

/-- Embedding of the path-table variant's `read`: render the node (the
string itself for strings, the compact serialization otherwise), then
slice bytes `[offset, min (offset + size) len)`; a start index beyond the
end makes the Rust slice expression panic. -/
def mainRead (fs : MainFS) (ino : Nat) (offset : Nat) (size : Nat) : ReadResult :=
  match lookupId fs.inodes ino with
  | none => .enoent
  | some path =>
    match resolvePath fs.json path with
    | none => .enoent
    | some v =>
      let content := match v with | .str s => s | _ => toJsonString v
      let bytes := utf8Bytes content
      let stop := min (offset + size) bytes.length
      if offset > stop then .panicked
      else .data ((bytes.take stop).drop offset)

/-- Embedding of `JsonFS::write_json_at_path`: walk the path with
unchecked lookups (`none` models the `unwrap` panics on a missing key or
index), stop early at a scalar, and overwrite the reached node with
`Value::String(content)`.  The offset of the FUSE write request is
ignored by this variant. -/
def write_json_at_path (v : JValue) (path : List String) (content : String) :
    Option JValue :=
  match path with
  | [] => some (.str content)
  | k :: ks =>
    if k = "" then write_json_at_path v ks content
    else
      match v with
      | .obj fields =>
        match lookupField fields k with
        | none => none
        | some child =>
          (write_json_at_path child ks content).map fun w => .obj (setField fields k w)
      | .arr elems =>
        match parseU64 k with
        | none => none
        | some i =>
          match elems.get? i with
          | none => none
          | some child =>
            (write_json_at_path child ks content).map fun w => .arr (elems.set i w)
      | _ => some (.str content)

/-- Request log of the observation operations of the path-table variant,
used to quantify over arbitrary reachable states. -/
inductive MainOp where
  | lookup (parent : Nat) (name : String)
  | readdir (ino : Nat) (offset : Nat)

/-- Admissible requests: FUSE never delivers a name containing a slash. -/
def opOk : MainOp → Bool
  | .lookup _ name => noSlash name
  | .readdir _ _ => true

/-- State transition of one request. -/
def mainStep (fs : MainFS) : MainOp → MainFS
  | .lookup parent name => (mainLookup fs parent name).2
  | .readdir ino offset => (mainReaddir fs ino offset).2

/-- State after a request sequence from a given state. -/
def mainRun (fs : MainFS) (ops : List MainOp) : MainFS :=
  ops.foldl mainStep fs

/-- Registry bijectivity as the specification states it: every alive id
maps to an existing location, and no two alive ids map to the same
location. -/
def MainRegistryBijective (fs : MainFS) : Prop :=
  (∀ i p, mainLocOf fs i = some p → (resolvePath fs.json p).isSome) ∧
  (∀ i j p, mainLocOf fs i = some p → mainLocOf fs j = some p → i = j)

/-! Flush, shared by both variants (`JsonFS::myflush` in `src/main.rs`
and `src/pinjsonfs.rs`). -/

/-- Outcome of a flush; `panicked` records the `.unwrap()` on the result
of `fs::write`, which aborts the process when the backing-store write
fails. -/
inductive FlushOutcome where
  | okReturned
  | panicked
deriving DecidableEq, Repr

/-- Embedding of `JsonFS::myflush`: serialize the whole in-memory tree
(serialization of a value tree cannot fail) and write it to the backing
file; the success of that external write is the `backingWriteOk` input.
The in-memory value is returned alongside to expose that the function
never touches it. -/
def myflush (json : JValue) (backingWriteOk : Bool) : FlushOutcome × JValue :=
  if backingWriteOk then (.okReturned, json) else (.panicked, json)

/-! Value-level operations of the pinned variant (`src/pinjsonfs.rs`).
These model the effect of a request on the node value it addresses; the
pointer-based id bookkeeping is modelled separately below. -/

/-- Embedding of the pinned variant's `write` body acting on the target
node: content that parses as `u64` replaces the node with that number
outright; otherwise a string node gets `replace_range(offset.., content)`
(keep the first `offset` bytes, drop the rest, append the content), which
panics (`none`) when `offset` exceeds the byte length or falls inside a
character; any other node is replaced by the content as a string. -/
def pinWriteValue (v : JValue) (offset : Nat) (content : String) : Option JValue :=
  match parseU64 content with
  | some n => some (.num (Int.ofNat n))
  | none =>
    match v with
    | .str s => (takeBytes s offset).map fun pre => .str (pre ++ content)
    | _ => some (.str content)

/-- Outcome of a `create` request in the pinned variant. -/
inductive CreateResult where
  | created (kind : FileKind)
  | einval
  | enosys
deriving DecidableEq, Repr

/-- Embedding of the pinned variant's `create` acting on the parent node.
An empty object addressed with a name that parses to `0` becomes the
array `[""]`; otherwise object parents get-or-create the key with an
empty-string default.  An empty array addressed with a name that does not
parse to `0` becomes the object `{name: ""}`; otherwise a non-numeric
name is `EINVAL`, the name equal to the current length appends `""`, and
any other index falls through to `ENOSYS`.  Scalar parents fall through
to `ENOSYS`. -/
def pinCreateParent (parent : JValue) (name : String) : CreateResult × JValue :=
  match parent with
  | .obj fields =>
    if fields = [] ∧ parseU64 name = some 0 then
      (.created .regularFile, .arr [.str ""])
    else
      match lookupField fields name with
      | some child => (.created (attrKind child), .obj fields)
      | none => (.created .regularFile, .obj (fields ++ [(name, .str "")]))
  | .arr elems =>
    if elems = [] ∧ parseU64 name ≠ some 0 then
      (.created .regularFile, .obj [(name, .str "")])
    else
      match parseU64 name with
      | none => (.einval, parent)
      | some i =>
        if i = elems.length then (.created .regularFile, .arr (elems ++ [.str ""]))
        else (.enosys, parent)
  | _ => (.enosys, parent)

/-- Stable insertion of a field into a key-sorted field list, by Rust's
byte-lexicographic string comparison (which agrees with comparison of
character sequences, since UTF-8 preserves codepoint order). -/
def insertSortedKV (x : String × JValue) :
    List (String × JValue) → List (String × JValue)
  | [] => [x]
  | y :: ys => if y.1.data < x.1.data then y :: insertSortedKV x ys else x :: y :: ys

/-- Stable ascending sort of object fields by key, embedding the
`values.sort_by(|a, b| a.0.cmp(&b.0))` of the pinned `readdir`. -/
def sortByKey : List (String × JValue) → List (String × JValue)
  | [] => []
  | x :: xs => insertSortedKV x (sortByKey xs)

/-- Directory entry as pushed to the FUSE reply by the pinned variant's
`readdir`: the reply offset (`child_index + 1`), the child's actual kind
(`get_value_type`), and its name.  The pointer id is not part of this
value-level model. -/
structure PinDirEntry where
  replyOffset : Nat
  kind : FileKind
  name : String
deriving DecidableEq, Repr

/-- Kind reported by the pinned variant's `get_value_type`. -/
def get_value_type (v : JValue) : FileKind :=
  match v with
  | .obj _ | .arr _ => .directory
  | _ => .regularFile

/-- Embedding of the pinned variant's `readdir` acting on the directory
node: object children are sorted by key, array children come in index
order, `offset` entries are skipped, and no `.`/`..` entries are
synthesized. -/
def pinReaddirEntries (v : JValue) (offset : Nat) : List PinDirEntry :=
  match v with
  | .obj fields =>
    ((sortByKey fields).enum.drop offset).map fun e =>
      ⟨e.1 + 1, get_value_type e.2.2, e.2.1⟩
  | .arr elems =>
    (elems.enum.drop offset).map fun e =>
      ⟨e.1 + 1, get_value_type e.2, natToString e.1⟩
  | _ => []

/-! Pointer-level model of the pinned variant, for the cascade
invalidation claim.  It is specialised to a document whose root is an
array of scalars (the shape of the specification's own renumbering
scenario).  A node address is either the address of the root `Value`
field or the address of slot `i` of the root array's buffer;
`Vec::remove` keeps the buffer and shifts later elements down one slot,
so slot addresses stay fixed while their contents shift. -/

/-- Node address. -/
inductive PAddr where
  | rootAddr
  | slot (i : Nat)
deriving DecidableEq, Repr

/-- Inode id of the pinned variant: the reserved `FUSE_ROOT_ID`, or a
node address used as id. -/
inductive PinId where
  | fuseRoot
  | addr (a : PAddr)
deriving DecidableEq, Repr

/-- State of the pointer-level model: the root array's elements and the
`ino2inode` registry mapping ids to the stored raw pointers. -/
structure PinFS where
  elems : List JValue
  reg : List (PinId × PAddr)

/-- Registry lookup (`self.ino2inode.get`). -/
def regGet (fs : PinFS) (i : PinId) : Option PAddr :=
  (fs.reg.find? (fun e => e.1 = i)).map (·.2)

/-- Read of the memory a stored address currently points to: the root
address always holds the root array; slot `i` holds the element now
stored at index `i`, and a slot at or past the current length is dangling
(`none`). -/
def derefAddr (fs : PinFS) (a : PAddr) : Option JValue :=
  match a with
  | .rootAddr => some (.arr fs.elems)
  | .slot i => fs.elems.get? i

/-- Freshly mounted state, embedding `JsonFS::new` plus `traverse`: the
root and every element are registered under their addresses, and
`FUSE_ROOT_ID` is additionally bound to the root address. -/
def pinMount (elems : List JValue) : PinFS :=
  { elems := elems
    reg := (.fuseRoot, .rootAddr) :: (.addr .rootAddr, .rootAddr) ::
      (List.range elems.length).map fun i => (.addr (.slot i), .slot i) }

/-- Outcome of an `unlink` request in the pinned variant. -/
inductive UnlinkResult where
  | ok
  | enosys
  | panicked
  | ubDeref
deriving DecidableEq, Repr

/-- Embedding of the pinned variant's `unlink` for an array parent: look
the parent id up (falling through to `ENOSYS` when absent), dereference
its stored pointer, parse the name as an index with `.unwrap()` (panic on
failure), and when the index is in range remove only that element's own
address from the registry and remove the element from the vector.  No
other registry entry is touched.  `ubDeref` marks a dereference of a
dangling stored pointer, which is undefined behaviour in the source. -/
def pinUnlink (fs : PinFS) (parent : PinId) (name : String) : UnlinkResult × PinFS :=
  match regGet fs parent with
  | none => (.enosys, fs)
  | some a =>
    match derefAddr fs a with
    | none => (.ubDeref, fs)
    | some (.arr _) =>
      match parseU64 name with
      | none => (.panicked, fs)
      | some i =>
        match fs.elems.get? i with
        | none => (.enosys, fs)
        | some _ =>
          (.ok,
            { elems := fs.elems.eraseIdx i
              reg := fs.reg.filter (fun e => e.1 ≠ .addr (.slot i)) })
    | some (.obj _) => (.enosys, fs)
    | some _ => (.enosys, fs)

/-- Outcome of a `lookup` request in the pointer-level pinned model: the
returned id is the child's current address. -/
inductive PinLookupResult where
  | entry (id : PinId) (kind : FileKind)
  | enoent
  | ubDeref
deriving DecidableEq, Repr

/-- Embedding of the pinned variant's `lookup` over the root array: the
parent id is dereferenced, the name parsed as an index, and the reply's
inode id is the address of slot `i` — without registering that id. -/
def pinLookup (fs : PinFS) (parent : PinId) (name : String) : PinLookupResult :=
  match regGet fs parent with
  | none => .enoent
  | some a =>
    match derefAddr fs a with
    | none => .ubDeref
    | some (.arr elems) =>
      match (parseU64 name).bind (fun i => (elems.get? i).map fun v => (i, v)) with
      | some (i, v) => .entry (.addr (.slot i)) (get_value_type v)
      | none => .enoent
    | some _ => .enoent

/-- Embedding of the pinned variant's `read`: an id absent from the
registry replies `ENOENT`; otherwise the stored pointer is dereferenced
and the node rendered (strings are byte-sliced with the same
panic-on-overrun pattern as the path-table variant, numbers ignore the
offset, containers fall through to `ENOENT`). -/
def pinRead (fs : PinFS) (ino : PinId) (offset : Nat) (size : Nat) : ReadResult :=
  match regGet fs ino with
  | none => .enoent
  | some a =>
    match derefAddr fs a with
    | none => .panicked
    | some v =>
      match v with
      | .null => .data []
      | .bool b => .data [cond b 1 0]
      | .num n => .data (utf8Bytes (intRepr n))
      | .str s =>
        let bytes := utf8Bytes s
        let stop := min (offset + size) bytes.length
        if offset > stop then .panicked
        else .data ((bytes.take stop).drop offset)
      | .obj _ => .enoent
      | .arr _ => .enoent

/-! Helper lemmas. -/

theorem digitChar_isDigit {n : Nat} (h : n < 10) : isDigit (digitChar n) = true := by
  interval_cases n <;> decide

theorem digitChar_val {n : Nat} (h : n < 10) : digitVal (digitChar n) = n := by
  interval_cases n <;> decide

theorem digitsVal_append (l : List Char) (c : Char) :
    digitsVal (l ++ [c]) = 10 * digitsVal l + digitVal c := by
  simp [digitsVal, List.foldl_append]

theorem natDigitsAux_spec :
    ∀ fuel n, n < fuel →
      natDigitsAux fuel n ≠ [] ∧ (natDigitsAux fuel n).all isDigit = true ∧
        digitsVal (natDigitsAux fuel n) = n := by
  intro fuel
  induction fuel with
  | zero => intro n h; omega
  | succ fuel ih =>
    intro n h
    by_cases hn : n < 10
    · refine ⟨by simp [natDigitsAux, hn], ?_, ?_⟩
      · simp [natDigitsAux, hn, List.all_cons, digitChar_isDigit hn]
      · simp [natDigitsAux, hn, digitsVal, digitChar_val hn]
    · have hd : n / 10 < fuel := by
        have h1 : n / 10 < n := Nat.div_lt_self (by omega) (by omega)
        omega
      obtain ⟨hne, hall, hval⟩ := ih (n / 10) hd
      have hm : n % 10 < 10 := Nat.mod_lt _ (by omega)
      refine ⟨by simp [natDigitsAux, hn], ?_, ?_⟩
      · simp only [natDigitsAux, if_neg hn, List.all_append, List.all_cons,
          List.all_nil, Bool.and_true, hall, digitChar_isDigit hm, Bool.true_and]
      · rw [natDigitsAux, if_neg hn, digitsVal_append, hval, digitChar_val hm]
        omega

theorem stripPlus_of_all_digits {cs : List Char} (h : cs.all isDigit = true) :
    stripPlus cs = cs := by
  cases cs with
  | nil => rfl
  | cons c r =>
    have hc : isDigit c = true := by
      simp [List.all_cons] at h
      exact h.1
    have : c ≠ '+' := by
      intro hEq
      rw [hEq] at hc
      exact absurd hc (by decide)
    simp [stripPlus, this]

theorem parseU64_natToString {n : Nat} (h : n < 2 ^ 64) :
    parseU64 (natToString n) = some n := by
  obtain ⟨hne, hall, hval⟩ := natDigitsAux_spec (n + 1) n (by omega)
  have hdata : (natToString n).data = natDigitsAux (n + 1) n := rfl
  rw [parseU64, hdata, stripPlus_of_all_digits hall, parseDigits, if_neg hne,
    if_pos hall, hval]
  show (if n < 2 ^ 64 then some n else none) = some n
  rw [if_pos h]

theorem natToString_ne_empty (n : Nat) : natToString n ≠ "" := by
  obtain ⟨hne, -, -⟩ := natDigitsAux_spec (n + 1) n (by omega)
  intro h
  have : (natToString n).data = [] := by simp [h]
  exact hne this

theorem resolvePath_append (v : JValue) (p q : List String) :
    resolvePath v (p ++ q) = (resolvePath v p).bind fun w => resolvePath w q := by
  induction p generalizing v with
  | nil => simp [resolvePath]
  | cons k ks ih =>
    by_cases hk : k = ""
    · simp [resolvePath, hk, ih]
    · simp only [List.cons_append, resolvePath, if_neg hk]
      cases resolveComp v k with
      | none => simp
      | some c => simp [ih]

theorem wfFields_lookup {fields : List (String × JValue)} {k : String} {w : JValue}
    (hwf : wfFields fields = true) (h : lookupField fields k = some w) :
    wfDoc w = true := by
  induction fields with
  | nil => simp [lookupField] at h
  | cons f fs ih =>
    obtain ⟨k', v⟩ := f
    rw [wfFields, Bool.and_eq_true, Bool.and_eq_true] at hwf
    rw [lookupField] at h
    split at h
    · cases h; exact hwf.1.2
    · exact ih hwf.2 h

theorem wfElems_get {es : List JValue} {i : Nat} {w : JValue}
    (hwf : wfElems es = true) (h : es.get? i = some w) : wfDoc w = true := by
  induction es generalizing i with
  | nil => simp at h
  | cons e es ih =>
    rw [wfElems, Bool.and_eq_true] at hwf
    cases i with
    | zero => simp at h; rw [← h]; exact hwf.1
    | succ j => exact ih hwf.2 h

theorem wfDoc_resolveComp {v w : JValue} {k : String} (hwf : wfDoc v = true)
    (h : resolveComp v k = some w) : wfDoc w = true := by
  cases v with
  | obj fields =>
    rw [wfDoc] at hwf
    exact wfFields_lookup hwf h
  | arr elems =>
    rw [wfDoc, Bool.and_eq_true] at hwf
    rw [resolveComp] at h
    cases hp : parseU64 k with
    | none => rw [hp] at h; exact Option.noConfusion h
    | some i =>
      rw [hp] at h
      simp only [Option.some_bind] at h
      exact wfElems_get hwf.2 h
  | null => exact Option.noConfusion h
  | bool b => exact Option.noConfusion h
  | num n => exact Option.noConfusion h
  | str s => exact Option.noConfusion h

theorem wfDoc_resolvePath {v w : JValue} {p : List String} (hwf : wfDoc v = true)
    (h : resolvePath v p = some w) : wfDoc w = true := by
  induction p generalizing v with
  | nil => rw [resolvePath] at h; cases h; exact hwf
  | cons k ks ih =>
    rw [resolvePath] at h
    split at h
    · exact ih hwf h
    · cases hc : resolveComp v k with
      | none => rw [hc] at h; exact Option.noConfusion h
      | some c =>
        rw [hc] at h
        simp only [Option.some_bind] at h
        exact ih (wfDoc_resolveComp hwf hc) h

theorem lookupField_isSome_of_mem {fields : List (String × JValue)} {k : String}
    (h : k ∈ fields.map (·.1)) : (lookupField fields k).isSome = true := by
  induction fields with
  | nil => simp at h
  | cons f fs ih =>
    rw [List.map_cons, List.mem_cons] at h
    rw [lookupField]
    split
    · rfl
    · next hne =>
      apply ih
      cases h with
      | inl hEq => exact absurd hEq.symm hne
      | inr hMem => exact hMem

theorem childNames_resolve {json v : JValue} {path : List String} {k : String}
    (hwf : wfDoc json = true) (hres : resolvePath json path = some v)
    (hk : k ∈ childNames v) : (resolvePath json (path ++ [k])).isSome = true := by
  rw [resolvePath_append, hres, Option.some_bind]
  have hwfv : wfDoc v = true := wfDoc_resolvePath hwf hres
  by_cases hke : k = ""
  · simp [resolvePath, hke]
  · rw [resolvePath, if_neg hke]
    cases v with
    | obj fields =>
      have hsome := lookupField_isSome_of_mem hk
      obtain ⟨c, hc⟩ := Option.isSome_iff_exists.mp hsome
      simp [resolveComp, hc, resolvePath]
    | arr elems =>
      rw [childNames, List.mem_map] at hk
      obtain ⟨i, hi, rfl⟩ := hk
      rw [List.mem_range] at hi
      rw [wfDoc, Bool.and_eq_true, decide_eq_true_eq] at hwfv
      have hp : parseU64 (natToString i) = some i :=
        parseU64_natToString (by omega)
      have hg : elems[i]? = some elems[i] := List.getElem?_eq_getElem hi
      simp [resolveComp, hp, hg, resolvePath]
    | null => simp [childNames] at hk
    | bool b => simp [childNames] at hk
    | num n => simp [childNames] at hk
    | str s => simp [childNames] at hk

/-- Registry soundness: every registered path resolves in the current
tree. -/
def MainInvOk (fs : MainFS) : Prop :=
  ∀ i p, (i, p) ∈ fs.inodes → (resolvePath fs.json p).isSome = true

/-- Registry boundedness: every registered id is at most the last minted
one. -/
def MainIdsLe (fs : MainFS) : Prop :=
  ∀ i p, (i, p) ∈ fs.inodes → i ≤ fs.last_inode

theorem allocChildren_json :
    ∀ ns (fs : MainFS) path, ((allocChildren fs path ns).2).json = fs.json := by
  intro ns
  induction ns with
  | nil => intro fs path; rfl
  | cons n ns ih => intro fs path; exact ih _ _

theorem allocChildren_mem :
    ∀ ns (fs : MainFS) path i p, (i, p) ∈ ((allocChildren fs path ns).2).inodes →
      (i, p) ∈ fs.inodes ∨ ∃ n ∈ ns, p = path ++ [n] := by
  intro ns
  induction ns with
  | nil => intro fs path i p h; exact Or.inl h
  | cons n ns ih =>
    intro fs path i p h
    rcases ih _ _ _ _ h with hmem | ⟨m, hm, hp⟩
    · rw [allocate_inode] at hmem
      rcases List.mem_cons.mp hmem with hEq | hmem'
      · right
        refine ⟨n, List.mem_cons_self _ _, ?_⟩
        exact (Prod.mk.injEq _ _ _ _ ▸ hEq).2
      · exact Or.inl hmem'
    · exact Or.inr ⟨m, List.mem_cons_of_mem _ hm, hp⟩

theorem allocChildren_bound :
    ∀ ns (fs : MainFS) path, MainIdsLe fs →
      MainIdsLe ((allocChildren fs path ns).2) ∧
        fs.last_inode ≤ ((allocChildren fs path ns).2).last_inode := by
  intro ns
  induction ns with
  | nil => intro fs path h; exact ⟨h, Nat.le_refl _⟩
  | cons n ns ih =>
    intro fs path h
    have h1 : MainIdsLe (allocate_inode fs (path ++ [n])).2 := by
      intro i p hmem
      rw [allocate_inode] at hmem ⊢
      rcases List.mem_cons.mp hmem with hEq | hmem'
      · simp [(Prod.mk.injEq _ _ _ _ ▸ hEq).1]
      · exact Nat.le_succ_of_le (h _ _ hmem')
    obtain ⟨h2, h3⟩ := ih (allocate_inode fs (path ++ [n])).2 path h1
    exact ⟨h2, Nat.le_trans (Nat.le_succ _) h3⟩

theorem mainLookup_json (fs : MainFS) (parent : Nat) (name : String) :
    ((mainLookup fs parent name).2).json = fs.json := by
  rw [mainLookup]
  split
  · rfl
  · split
    · rfl
    · rfl

theorem mainStep_json (fs : MainFS) (op : MainOp) :
    (mainStep fs op).json = fs.json := by
  cases op with
  | lookup parent name => exact mainLookup_json fs parent name
  | readdir ino offset =>
    rw [mainStep, mainReaddir]
    split
    · rfl
    · split
      · rfl
      · exact allocChildren_json _ _ _

theorem mainStep_inv {fs : MainFS} (hwf : wfDoc fs.json = true)
    (hinv : MainInvOk fs) (op : MainOp) : MainInvOk (mainStep fs op) := by
  have hjson := mainStep_json fs op
  cases op with
  | lookup parent name =>
    intro i p hmem
    rw [mainStep] at hmem hjson ⊢
    rw [mainLookup] at hmem hjson ⊢
    split at hmem
    · exact hinv _ _ hmem
    · next ppath hpp =>
      split at hmem
      · next v hres =>
        rw [allocate_inode] at hmem
        rcases List.mem_cons.mp hmem with hEq | hmem'
        · have hp : p = ppath ++ [name] := congrArg Prod.snd hEq
          rw [hp]
          simp only [allocate_inode]
          rw [hres]
          rfl
        · exact hinv _ _ hmem'
      · exact hinv _ _ hmem
  | readdir ino offset =>
    intro i p hmem
    rw [mainStep] at hmem hjson ⊢
    rw [mainReaddir] at hmem hjson ⊢
    split at hmem
    · exact hinv _ _ hmem
    · next path hpath =>
      split at hmem
      · exact hinv _ _ hmem
      · next v hres =>
        rw [allocChildren_json] at *
        rcases allocChildren_mem _ _ _ _ _ hmem with hmem' | ⟨n, hn, hp⟩
        · exact hinv _ _ hmem'
        · rw [hp]
          exact childNames_resolve hwf hres hn

theorem mainStep_bound {fs : MainFS} (hb : MainIdsLe fs) (op : MainOp) :
    MainIdsLe (mainStep fs op) := by
  cases op with
  | lookup parent name =>
    intro i p hmem
    rw [mainStep, mainLookup] at hmem ⊢
    split at hmem
    · exact hb _ _ hmem
    · split at hmem
      · rw [allocate_inode] at hmem
        rcases List.mem_cons.mp hmem with hEq | hmem'
        · simp [(Prod.mk.injEq _ _ _ _ ▸ hEq).1, allocate_inode]
        · exact Nat.le_succ_of_le (hb _ _ hmem')
      · exact hb _ _ hmem
  | readdir ino offset =>
    intro i p hmem
    rw [mainStep, mainReaddir] at hmem ⊢
    split at hmem
    · exact hb _ _ hmem
    · split at hmem
      · exact hb _ _ hmem
      · exact (allocChildren_bound _ _ _ hb).1 _ _ hmem

theorem mainRun_json (fs : MainFS) (ops : List MainOp) :
    (mainRun fs ops).json = fs.json := by
  induction ops generalizing fs with
  | nil => rfl
  | cons op ops ih => rw [mainRun, List.foldl_cons, ← mainRun, ih, mainStep_json]

theorem mainRun_inv {fs : MainFS} (hwf : wfDoc fs.json = true)
    (hinv : MainInvOk fs) (ops : List MainOp) : MainInvOk (mainRun fs ops) := by
  induction ops generalizing fs with
  | nil => exact hinv
  | cons op ops ih =>
    rw [mainRun, List.foldl_cons, ← mainRun]
    exact ih (by rw [mainStep_json]; exact hwf) (mainStep_inv hwf hinv op)

theorem mainRun_bound {fs : MainFS} (hb : MainIdsLe fs) (ops : List MainOp) :
    MainIdsLe (mainRun fs ops) := by
  induction ops generalizing fs with
  | nil => exact hb
  | cons op ops ih =>
    rw [mainRun, List.foldl_cons, ← mainRun]
    exact ih (mainStep_bound hb op)

theorem mainNew_inv (json : JValue) : MainInvOk (mainNew json) := by
  intro i p hmem
  rcases List.mem_cons.mp hmem with hEq | hmem'
  · have hp : p = [] := congrArg Prod.snd hEq
    rw [hp]
    rfl
  · simp at hmem'

theorem mainNew_bound (json : JValue) : MainIdsLe (mainNew json) := by
  intro i p hmem
  rcases List.mem_cons.mp hmem with hEq | hmem'
  · have hi : i = FUSE_ROOT_ID := congrArg Prod.fst hEq
    simp [hi, mainNew]
  · simp at hmem'

theorem mainLocOf_mem {fs : MainFS} {i : Nat} {p : List String}
    (h : mainLocOf fs i = some p) : (i, p) ∈ fs.inodes := by
  rw [mainLocOf, lookupId] at h
  cases hf : fs.inodes.find? (fun e => e.1 = i) with
  | none => rw [hf] at h; exact absurd h (by simp)
  | some e =>
    rw [hf] at h
    have hp : e.2 = p := by simpa using h
    have hi : e.1 = i := by simpa using List.find?_some hf
    have hmem : e ∈ fs.inodes := List.mem_of_find?_eq_some hf
    rw [← hi, ← hp]
    exact hmem

/-- Sample document used by concrete witnesses: the end-to-end document
of the specification. -/
def sampleDoc : JValue :=
  .obj [("a", .str "hello"), ("b", .arr [.num 1, .num 2, .num 3])]

/-- C1: refuted as stated.  After a fresh mount of the sample document,
two lookups of the same name "a" mint two distinct ids (2 and 3), both
alive and both bound to the same location, so the id-to-location mapping
of the path-table variant is not a bijection: a location can carry many
simultaneously alive ids. -/
theorem c1_counterexample :
    ¬ MainRegistryBijective
      (mainRun (mainNew sampleDoc) [.lookup 1 "a", .lookup 1 "a"]) := by
  intro h
  have h2 := h.2 2 3 ["a"] (by decide) (by decide)
  exact absurd h2 (by decide)

/-- C1 (amended): for every sequence of lookup/readdir observations from
the freshly mounted state of a sane document (slash-free keys, array
lengths below 2^64, names slash-free), every alive id maps to exactly one
location, and that location exists in the tree; but a location may carry
several alive ids, so the map is a function on alive ids and not a
bijection. -/
theorem c1_registry_amended (json : JValue) (ops : List MainOp)
    (hwf : wfDoc json = true) (_hops : ∀ op ∈ ops, opOk op = true) :
    (∀ i p, mainLocOf (mainRun (mainNew json) ops) i = some p →
      (resolvePath (mainRun (mainNew json) ops).json p).isSome = true) ∧
    (∀ i p q, mainLocOf (mainRun (mainNew json) ops) i = some p →
      mainLocOf (mainRun (mainNew json) ops) i = some q → p = q) := by
  refine ⟨?_, ?_⟩
  · intro i p hloc
    exact mainRun_inv hwf (mainNew_inv json) ops _ _ (mainLocOf_mem hloc)
  · intro i p q h1 h2
    rw [h1] at h2
    exact Option.some.inj h2

theorem c1_registry_amended_witness :
    wfDoc sampleDoc = true ∧
      ((∀ i p, mainLocOf (mainRun (mainNew sampleDoc) [MainOp.lookup 1 "a"]) i = some p →
          (resolvePath (mainRun (mainNew sampleDoc) [MainOp.lookup 1 "a"]).json p).isSome =
            true) ∧
        (∀ i p q, mainLocOf (mainRun (mainNew sampleDoc) [MainOp.lookup 1 "a"]) i = some p →
          mainLocOf (mainRun (mainNew sampleDoc) [MainOp.lookup 1 "a"]) i = some q →
            p = q)) :=
  ⟨by decide, c1_registry_amended sampleDoc [MainOp.lookup 1 "a"] (by decide) (by decide)⟩

/-- C2: refuted as stated.  A second lookup of the same existing location
does not return the existing id: on the sample document the first lookup
of "a" returns id 2 and the second returns id 3, while both ids stay
bound to the same location. -/
theorem c2_counterexample :
    (mainLookup (mainNew sampleDoc) 1 "a").1 = .entry ⟨2, 5, .regularFile⟩ ∧
    (mainLookup (mainLookup (mainNew sampleDoc) 1 "a").2 1 "a").1 =
      .entry ⟨3, 5, .regularFile⟩ ∧
    mainLocOf (mainLookup (mainLookup (mainNew sampleDoc) 1 "a").2 1 "a").2 2 =
      some ["a"] ∧
    mainLocOf (mainLookup (mainLookup (mainNew sampleDoc) 1 "a").2 1 "a").2 3 =
      some ["a"] ∧
    (2 : Nat) ≠ 3 := by
  refine ⟨by decide, by decide, by decide, by decide, by decide⟩

theorem allocChildren_fresh :
    ∀ ns (fs : MainFS) path (e : DirEntry), e ∈ (allocChildren fs path ns).1 →
      fs.last_inode < e.ino := by
  intro ns
  induction ns with
  | nil =>
    intro fs path e h
    simp [allocChildren] at h
  | cons n ns ih =>
    intro fs path e h
    rw [allocChildren] at h
    rcases List.mem_cons.mp h with rfl | h2
    · exact Nat.lt_succ_self _
    · have hlt := ih (allocate_inode fs (path ++ [n])).2 path e h2
      exact Nat.lt_of_succ_lt hlt

/-- C2 (amended): every observation of the path-table variant mints
fresh ids strictly greater than every id alive before the call, even
when the observed location already has a live id: a successful lookup's
returned id exceeds all previously alive ids, and so does the id of
every child entry allocated by a readdir (the child entries being
exactly the RegularFile-kinded ones — the synthetic dot entries reuse
the directory's own id).  The monotonically-increasing half of the claim
holds, the get-or-reuse half does not. -/
theorem c2_fresh_monotonic (json : JValue) (ops : List MainOp) :
    (∀ (parent : Nat) (name : String) (attr : FileAttr) (fs' : MainFS),
      mainLookup (mainRun (mainNew json) ops) parent name = (.entry attr, fs') →
      ∀ i p, (i, p) ∈ (mainRun (mainNew json) ops).inodes → i < attr.ino) ∧
    (∀ (ino offset : Nat) (e : DirEntry),
      e ∈ (mainReaddir (mainRun (mainNew json) ops) ino offset).1 →
      e.kind = .regularFile →
      ∀ i p, (i, p) ∈ (mainRun (mainNew json) ops).inodes → i < e.ino) := by
  constructor
  · intro parent name attr fs' h i p hmem
    have hble := mainRun_bound (mainNew_bound json) ops _ _ hmem
    rw [mainLookup] at h
    split at h
    · simp at h
    · split at h
      · injection h with h1 h2
        injection h1 with h3
        have hino : attr.ino = (mainRun (mainNew json) ops).last_inode + 1 := by
          rw [← h3]
          rfl
        omega
      · simp at h
  · intro ino offset e hmem hkind i p hmemi
    have hble := mainRun_bound (mainNew_bound json) ops _ _ hmemi
    rw [mainReaddir] at hmem
    split at hmem
    · simp at hmem
    · split at hmem
      · simp at hmem
      · next v hres =>
        have hfull := (List.drop_sublist offset _).mem hmem
        rcases List.mem_cons.mp hfull with rfl | hfull2
        · exact FileKind.noConfusion hkind
        · rcases List.mem_cons.mp hfull2 with rfl | hchild
          · exact FileKind.noConfusion hkind
          · have hfresh := allocChildren_fresh (childNames v) _ _ e hchild
            omega

theorem c2_fresh_monotonic_witness :
    (((1, ([] : List String)) ∈ (mainRun (mainNew sampleDoc) []).inodes) ∧
      (1 : Nat) < 2) ∧
    (((⟨2, FileKind.regularFile, "a"⟩ : DirEntry) ∈
        (mainReaddir (mainRun (mainNew sampleDoc) []) 1 0).1) ∧ (1 : Nat) < 2) :=
  ⟨⟨by decide,
    (c2_fresh_monotonic sampleDoc []).1 1 "a" ⟨2, 5, .regularFile⟩
      (mainLookup (mainRun (mainNew sampleDoc) []) 1 "a").2 rfl 1 [] (by decide)⟩,
    ⟨by decide,
      (c2_fresh_monotonic sampleDoc []).2 1 0 ⟨2, .regularFile, "a"⟩ (by decide) rfl
        1 [] (by decide)⟩⟩

/-- C3 (code divergence at the specification's own scenario): mounting
the array ["a","b","c"] and unlinking index 0 succeeds and leaves the
tree ["b","c"], but the pinned variant releases only the removed
element's own id: the id bound to "b" (slot 1) before the unlink —
shown reading "b" beforehand — is still alive afterwards and now
dereferences to "c", and a fresh lookup of index 0 returns the slot-0
address, whose read replies ENOENT because exactly that address was
dropped from the registry.  No cascade invalidation is performed. -/
theorem c3_no_cascade_divergence :
    pinRead (pinMount [.str "a", .str "b", .str "c"]) (.addr (.slot 1)) 0 4096 =
      .data [98] ∧
    (pinUnlink (pinMount [.str "a", .str "b", .str "c"]) .fuseRoot "0").1 = .ok ∧
    ((pinUnlink (pinMount [.str "a", .str "b", .str "c"]) .fuseRoot "0").2).elems =
      [.str "b", .str "c"] ∧
    regGet (pinUnlink (pinMount [.str "a", .str "b", .str "c"]) .fuseRoot "0").2
      (.addr (.slot 1)) = some (.slot 1) ∧
    derefAddr (pinUnlink (pinMount [.str "a", .str "b", .str "c"]) .fuseRoot "0").2
      (.slot 1) = some (.str "c") ∧
    pinLookup (pinUnlink (pinMount [.str "a", .str "b", .str "c"]) .fuseRoot "0").2
      .fuseRoot "0" = .entry (.addr (.slot 0)) .regularFile ∧
    pinRead (pinUnlink (pinMount [.str "a", .str "b", .str "c"]) .fuseRoot "0").2
      (.addr (.slot 0)) 0 4096 = .enoent := by
  decide

/-- C4 (code divergence): on a String node "hello" of length 5, an
in-range write of "XY" at offset 2 truncates the tail ("heXY") in the
pinned variant instead of replacing the byte range in place ("heXYo");
an offset equal to the length appends as the claim says; an offset 7
beyond the length panics (none) instead of failing with a recoverable
IndexOutOfRange; and the path-table variant ignores the offset entirely,
replacing the whole node with "XY". -/
theorem c4_write_splice_divergence :
    pinWriteValue (.str "hello") 2 "XY" = some (.str "heXY") ∧
    pinWriteValue (.str "hello") 5 "XY" = some (.str "helloXY") ∧
    pinWriteValue (.str "hello") 7 "XY" = none ∧
    write_json_at_path (.obj [("a", .str "hello")]) ["a"] "XY" =
      some (.obj [("a", .str "XY")]) := by
  decide

/-- C7 (code divergence): flush never alters the in-memory tree, but
when the backing-store write fails the code panics — aborting the
process — instead of surfacing IoError to the caller. -/
theorem c7_flush_panics :
    ∀ (json : JValue) (b : Bool),
      (myflush json b).2 = json ∧ (myflush json false).1 = .panicked ∧
        (myflush json true).1 = .okReturned := by
  intro json b
  cases b <;> exact ⟨rfl, rfl, rfl⟩

/-- C8 (code divergence): after looking up "a" (id 2, content "hello"),
a read at offset 6 > 5 panics in the slice expression rather than
replying with a recoverable error, and a lookup under an unregistered
parent id panics in `.unwrap()` rather than replying NotFound; an
in-range read and a read of an unknown id (which does take the ENOENT
branch) are shown for contrast. -/
theorem c8_panics_not_errors :
    (mainLookup (mainNew sampleDoc) 1 "a").1 = .entry ⟨2, 5, .regularFile⟩ ∧
    mainRead (mainLookup (mainNew sampleDoc) 1 "a").2 2 6 1 = .panicked ∧
    mainRead (mainLookup (mainNew sampleDoc) 1 "a").2 2 0 5 =
      .data [104, 101, 108, 108, 111] ∧
    (mainLookup (mainLookup (mainNew sampleDoc) 1 "a").2 99 "x").1 = .panicked ∧
    mainRead (mainLookup (mainNew sampleDoc) 1 "a").2 77 0 1 = .enoent := by
  decide

theorem lookupField_setField {fields : List (String × JValue)} {k : String}
    {c : JValue} (h : lookupField fields k = some c) (w : JValue) :
    lookupField (setField fields k w) k = some w := by
  induction fields with
  | nil => exact Option.noConfusion h
  | cons f fs ih =>
    obtain ⟨k', v⟩ := f
    by_cases hk : k' = k
    · rw [setField, if_pos hk, lookupField, if_pos hk]
    · rw [lookupField, if_neg hk] at h
      rw [setField, if_neg hk, lookupField, if_neg hk]
      exact ih h

theorem wjap_nil (v : JValue) (content : String) :
    write_json_at_path v [] content = some (.str content) := by
  cases v <;> rfl

theorem wjap_skip (v : JValue) (ks : List String) (content : String) :
    write_json_at_path v ("" :: ks) content = write_json_at_path v ks content := by
  cases v <;> rfl

theorem wjap_obj (fields : List (String × JValue)) (k : String) (ks : List String)
    (content : String) (hk : k ≠ "") :
    write_json_at_path (.obj fields) (k :: ks) content =
      match lookupField fields k with
      | none => none
      | some child =>
        (write_json_at_path child ks content).map fun w => .obj (setField fields k w) := by
  have h1 : write_json_at_path (.obj fields) (k :: ks) content =
      if k = "" then write_json_at_path (.obj fields) ks content
      else
        match lookupField fields k with
        | none => none
        | some child =>
          (write_json_at_path child ks content).map fun w => .obj (setField fields k w) := rfl
  rw [h1, if_neg hk]

theorem wjap_arr (elems : List JValue) (k : String) (ks : List String)
    (content : String) (hk : k ≠ "") :
    write_json_at_path (.arr elems) (k :: ks) content =
      match parseU64 k with
      | none => none
      | some i =>
        match elems.get? i with
        | none => none
        | some child =>
          (write_json_at_path child ks content).map fun w => .arr (elems.set i w) := by
  have h1 : write_json_at_path (.arr elems) (k :: ks) content =
      if k = "" then write_json_at_path (.arr elems) ks content
      else
        match parseU64 k with
        | none => none
        | some i =>
          match elems.get? i with
          | none => none
          | some child =>
            (write_json_at_path child ks content).map fun w => .arr (elems.set i w) := rfl
  rw [h1, if_neg hk]

theorem write_resolves (content : String) :
    ∀ (path : List String) (json v : JValue), resolvePath json path = some v →
      ∃ r, write_json_at_path json path content = some r ∧
        resolvePath r path = some (.str content) := by
  intro path
  induction path with
  | nil =>
    intro json v _
    exact ⟨.str content, rfl, rfl⟩
  | cons k ks ih =>
    intro json v h
    by_cases hk : k = ""
    · subst hk
      rw [resolvePath, if_pos rfl] at h
      obtain ⟨r, hw, hr⟩ := ih json v h
      refine ⟨r, ?_, ?_⟩
      · rw [wjap_skip]
        exact hw
      · rw [resolvePath, if_pos rfl]
        exact hr
    · rw [resolvePath, if_neg hk] at h
      cases hc : resolveComp json k with
      | none => rw [hc] at h; exact Option.noConfusion h
      | some c =>
        rw [hc, Option.some_bind] at h
        obtain ⟨rc, hw, hr⟩ := ih c v h
        cases json with
        | obj fields =>
          have hlf : lookupField fields k = some c := hc
          refine ⟨.obj (setField fields k rc), ?_, ?_⟩
          · rw [wjap_obj fields k ks content hk, hlf]
            show Option.map (fun w => JValue.obj (setField fields k w))
                (write_json_at_path c ks content) =
              some (JValue.obj (setField fields k rc))
            rw [hw]
            rfl
          · rw [resolvePath, if_neg hk]
            have hset : resolveComp (.obj (setField fields k rc)) k = some rc :=
              lookupField_setField hlf rc
            rw [hset, Option.some_bind]
            exact hr
        | arr elems =>
          cases hp : parseU64 k with
          | none =>
            rw [resolveComp, hp] at hc
            exact Option.noConfusion hc
          | some i =>
            rw [resolveComp, hp, Option.some_bind] at hc
            have hlen : i < elems.length := by
              rcases List.get?_eq_some.mp hc with ⟨hl, -⟩
              exact hl
            refine ⟨.arr (elems.set i rc), ?_, ?_⟩
            · rw [wjap_arr elems k ks content hk, hp]
              show (match elems.get? i with
                  | none => none
                  | some child =>
                    Option.map (fun w => JValue.arr (elems.set i w))
                      (write_json_at_path child ks content)) =
                some (JValue.arr (elems.set i rc))
              rw [hc]
              show Option.map (fun w => JValue.arr (elems.set i w))
                  (write_json_at_path c ks content) =
                some (JValue.arr (elems.set i rc))
              rw [hw]
              rfl
            · rw [resolvePath, if_neg hk]
              have hg : (elems.set i rc).get? i = some rc := by
                rw [List.get?_eq_getElem?]
                simp [hlen]
              have hcomp : resolveComp (.arr (elems.set i rc)) k = some rc := by
                rw [resolveComp, hp, Option.some_bind]
                exact hg
              rw [hcomp, Option.some_bind]
              exact hr
        | null => exact Option.noConfusion hc
        | bool b => exact Option.noConfusion hc
        | num n => exact Option.noConfusion hc
        | str s => exact Option.noConfusion hc

theorem pwv_unfold (v : JValue) (offset : Nat) (content : String) :
    pinWriteValue v offset content =
      match parseU64 content with
      | some n => some (.num (Int.ofNat n))
      | none =>
        match v with
        | .str s => (takeBytes s offset).map fun pre => .str (pre ++ content)
        | _ => some (.str content) := by
  cases v <;> rfl

/-- C5: refuted as stated.  Writing the bytes "42" over the string node
at path ["a"] in the path-table variant yields the String "42", although
the resulting full content "42" parses fully as an integer, so the node
does not become a Number; and the pinned variant decides the coercion
from the written bytes alone, so writing "3" at offset 2 into "12" gives
the Number 3 even though the resulting content under the claimed splice
would be "123"; the two variants moreover disagree on the same input, so
there is no single deterministic policy. -/
theorem c5_counterexample :
    write_json_at_path (.obj [("a", .str "x")]) ["a"] "42" =
      some (.obj [("a", .str "42")]) ∧
    parseU64 "42" = some 42 ∧
    JValue.str "42" ≠ JValue.num 42 ∧
    pinWriteValue (.str "12") 2 "3" = some (.num 3) ∧
    pinWriteValue (.str "12") 2 "x" = some (.str "12x") := by
  decide

/-- C5 (amended): each variant has its own deterministic policy.  The
path-table variant stores every written content as a String at the
written path (never coercing to Number), and the pinned variant produces
a Number exactly when the written bytes themselves parse as a `u64`,
regardless of offset and of the node's previous content. -/
theorem c5_write_policy (json : JValue) (path : List String) (content : String)
    (v : JValue) (hres : resolvePath json path = some v) :
    (∃ r, write_json_at_path json path content = some r ∧
      resolvePath r path = some (.str content)) ∧
    (∀ w offset r, pinWriteValue w offset content = some r →
      ((∃ m, r = JValue.num m) ↔ ∃ n, parseU64 content = some n)) := by
  refine ⟨write_resolves content path json v hres, ?_⟩
  intro w offset r hr
  rw [pwv_unfold w offset content] at hr
  cases hp : parseU64 content with
  | some n =>
    rw [hp] at hr
    have hrn : r = JValue.num (Int.ofNat n) :=
      (Option.some.inj (hr : some (JValue.num (Int.ofNat n)) = some r)).symm
    exact ⟨fun _ => ⟨n, rfl⟩, fun _ => ⟨Int.ofNat n, hrn⟩⟩
  | none =>
    rw [hp] at hr
    constructor
    · intro hm
      obtain ⟨m, hm⟩ := hm
      cases w with
      | str s =>
        have hr2 : (takeBytes s offset).map (fun pre => JValue.str (pre ++ content)) =
            some r := hr
        cases ht : takeBytes s offset with
        | none => rw [ht] at hr2; exact Option.noConfusion hr2
        | some pre =>
          rw [ht] at hr2
          have hrs : JValue.str (pre ++ content) = r := Option.some.inj hr2
          rw [← hrs] at hm
          exact JValue.noConfusion hm
      | null =>
        have hrs : JValue.str content = r := Option.some.inj hr
        rw [← hrs] at hm
        exact JValue.noConfusion hm
      | bool b =>
        have hrs : JValue.str content = r := Option.some.inj hr
        rw [← hrs] at hm
        exact JValue.noConfusion hm
      | num k =>
        have hrs : JValue.str content = r := Option.some.inj hr
        rw [← hrs] at hm
        exact JValue.noConfusion hm
      | obj fields =>
        have hrs : JValue.str content = r := Option.some.inj hr
        rw [← hrs] at hm
        exact JValue.noConfusion hm
      | arr elems =>
        have hrs : JValue.str content = r := Option.some.inj hr
        rw [← hrs] at hm
        exact JValue.noConfusion hm
    · intro hn
      obtain ⟨n, hn⟩ := hn
      exact Option.noConfusion hn

theorem c5_write_policy_witness :
    resolvePath sampleDoc ["a"] = some (.str "hello") ∧
      ((∃ r, write_json_at_path sampleDoc ["a"] "42" = some r ∧
          resolvePath r ["a"] = some (.str "42")) ∧
        (∀ w offset r, pinWriteValue w offset "42" = some r →
          ((∃ m, r = JValue.num m) ↔ ∃ n, parseU64 "42" = some n))) :=
  ⟨rfl, c5_write_policy sampleDoc ["a"] "42" (.str "hello") rfl⟩

/-- C6: refuted as stated.  The name "1" is numeric yet is not the next
index of the empty array, so by the claim the parent's kind should stay
Array; the code nevertheless converts the empty Array parent into an
Object holding the key "1". -/
theorem c6_counterexample :
    parseU64 "1" = some 1 ∧
    (pinCreateParent (.arr []) "1").1 = .created .regularFile ∧
    (pinCreateParent (.arr []) "1").2 = .obj [("1", .str "")] := by
  decide

/-- C6 (amended): the conversion conditions are phrased by `u64` parses,
not by textual shape.  An empty Object whose insert name parses to 0
becomes the array [""]; an empty Array whose insert name does not parse
to 0 (non-numeric names, but also "1", "2", ...) becomes an Object with
that key; in every other case the parent container's kind is
preserved. -/
theorem c6_kind_conversion (p : JValue) (n : String) :
    (p = .obj [] → parseU64 n = some 0 → (pinCreateParent p n).2 = .arr [.str ""]) ∧
    (p = .arr [] → parseU64 n ≠ some 0 →
      (pinCreateParent p n).2 = .obj [(n, .str "")]) ∧
    (∀ fields, p = .obj fields → fields ≠ [] →
      ∃ gs, (pinCreateParent p n).2 = .obj gs) ∧
    (∀ elems, p = .arr elems → elems ≠ [] →
      ∃ es, (pinCreateParent p n).2 = .arr es) ∧
    (p = .obj [] → parseU64 n ≠ some 0 → ∃ gs, (pinCreateParent p n).2 = .obj gs) ∧
    (p = .arr [] → parseU64 n = some 0 → ∃ es, (pinCreateParent p n).2 = .arr es) := by
  refine ⟨?_, ?_, ?_, ?_, ?_, ?_⟩
  · rintro rfl hn
    rw [pinCreateParent, if_pos ⟨rfl, hn⟩]
  · rintro rfl hn
    rw [pinCreateParent, if_pos ⟨rfl, hn⟩]
  · rintro fields rfl hne
    rw [pinCreateParent, if_neg (fun hcon => hne hcon.1)]
    cases lookupField fields n with
    | none => exact ⟨_, rfl⟩
    | some child => exact ⟨_, rfl⟩
  · rintro elems rfl hne
    rw [pinCreateParent, if_neg (fun hcon => hne hcon.1)]
    cases parseU64 n with
    | none => exact ⟨_, rfl⟩
    | some i =>
      show ∃ es,
        (if i = elems.length then
            (CreateResult.created FileKind.regularFile, JValue.arr (elems ++ [JValue.str ""]))
          else (CreateResult.enosys, JValue.arr elems)).2 = JValue.arr es
      split
      · exact ⟨_, rfl⟩
      · exact ⟨_, rfl⟩
  · rintro rfl hn
    rw [pinCreateParent, if_neg (fun hcon => hn hcon.2)]
    exact ⟨_, rfl⟩
  · rintro rfl hn
    rw [pinCreateParent, if_neg (fun hcon => hcon.2 hn)]
    rw [hn]
    exact ⟨_, rfl⟩

theorem c6_kind_conversion_witness :
    (JValue.arr [] = .arr []) ∧ parseU64 "x" ≠ some 0 ∧
      (pinCreateParent (.arr []) "x").2 = .obj [("x", .str "")] :=
  ⟨rfl, by decide, (c6_kind_conversion (.arr []) "x").2.1 rfl (by decide)⟩

theorem mem_insertSortedKV {z x : String × JValue} {l : List (String × JValue)}
    (h : z ∈ insertSortedKV x l) : z = x ∨ z ∈ l := by
  induction l with
  | nil => simpa [insertSortedKV] using h
  | cons y ys ih =>
    rw [insertSortedKV] at h
    split at h
    · rcases List.mem_cons.mp h with hy | hz
      · exact Or.inr (hy ▸ List.mem_cons_self _ _)
      · rcases ih hz with h1 | h2
        · exact Or.inl h1
        · exact Or.inr (List.mem_cons_of_mem _ h2)
    · rcases List.mem_cons.mp h with h1 | h2
      · exact Or.inl h1
      · exact Or.inr h2

theorem pairwise_insertSortedKV (x : String × JValue) (l : List (String × JValue))
    (h : l.Pairwise (fun a b => ¬ b.1.data < a.1.data)) :
    (insertSortedKV x l).Pairwise (fun a b => ¬ b.1.data < a.1.data) := by
  induction l with
  | nil => simp [insertSortedKV]
  | cons y ys ih =>
    rw [List.pairwise_cons] at h
    obtain ⟨hy, hys⟩ := h
    rw [insertSortedKV]
    split
    · next hlt =>
      rw [List.pairwise_cons]
      refine ⟨?_, ih hys⟩
      intro z hz
      rcases mem_insertSortedKV hz with rfl | hzys
      · exact lt_asymm hlt
      · exact hy z hzys
    · next hnlt =>
      rw [List.pairwise_cons]
      refine ⟨?_, List.pairwise_cons.mpr ⟨hy, hys⟩⟩
      intro z hz
      rcases List.mem_cons.mp hz with rfl | hzys
      · exact hnlt
      · have h1 : x.1.data ≤ y.1.data := le_of_not_lt hnlt
        have h2 : y.1.data ≤ z.1.data := le_of_not_lt (hy z hzys)
        exact not_lt_of_le (le_trans h1 h2)

theorem sortByKey_pairwise (l : List (String × JValue)) :
    (sortByKey l).Pairwise (fun a b => ¬ b.1.data < a.1.data) := by
  induction l with
  | nil => simp [sortByKey]
  | cons x xs ih => exact pairwise_insertSortedKV x (sortByKey xs) ih

theorem pin_obj_names (fields : List (String × JValue)) (offset : Nat) :
    (pinReaddirEntries (.obj fields) offset).map PinDirEntry.name =
      ((sortByKey fields).map Prod.fst).drop offset := by
  simp only [pinReaddirEntries, List.map_map]
  have h0 : (PinDirEntry.name ∘ fun e : Nat × String × JValue =>
      PinDirEntry.mk (e.1 + 1) (get_value_type e.2.2) e.2.1) = Prod.fst ∘ Prod.snd := rfl
  rw [h0, ← List.map_map, List.map_drop, List.enum_map_snd, List.map_drop]

theorem pin_arr_names (elems : List JValue) (offset : Nat) :
    (pinReaddirEntries (.arr elems) offset).map PinDirEntry.name =
      ((List.range elems.length).map natToString).drop offset := by
  simp only [pinReaddirEntries, List.map_map]
  have h1 : (PinDirEntry.name ∘ fun e : Nat × JValue =>
      PinDirEntry.mk (e.1 + 1) (get_value_type e.2) (natToString e.1)) =
        natToString ∘ Prod.fst := rfl
  rw [h1, ← List.map_map, List.map_drop, List.enum_map_fst, List.map_drop]

theorem allocChildren_names :
    ∀ ns (fs : MainFS) path, (allocChildren fs path ns).1.map DirEntry.name = ns := by
  intro ns
  induction ns with
  | nil => intro fs path; rfl
  | cons n ns ih =>
    intro fs path
    rw [allocChildren, List.map_cons, ih]

theorem allocChildren_kinds :
    ∀ ns (fs : MainFS) path (e : DirEntry), e ∈ (allocChildren fs path ns).1 →
      e.kind = .regularFile := by
  intro ns
  induction ns with
  | nil =>
    intro fs path e h
    simp [allocChildren] at h
  | cons n ns ih =>
    intro fs path e h
    rw [allocChildren] at h
    rcases List.mem_cons.mp h with rfl | h2
    · rfl
    · exact ih _ _ _ h2

/-- C9: refuted as stated.  The pinned variant's directory listing of the
object with keys inserted as "b" then "a" is ["a","b"]: it is not
prefixed by "." and "..", and its sorted order differs from the
path-table variant's listing [".", "..", "b", "a"] of the same document,
so there is no single fixed order across operations and variants. -/
theorem c9_counterexample :
    (pinReaddirEntries (.obj [("b", .num 1), ("a", .num 2)]) 0).map PinDirEntry.name =
      ["a", "b"] ∧
    (["a", "b"] : List String).head? ≠ some "." ∧
    (mainReaddir (mainNew (.obj [("b", .num 1), ("a", .num 2)])) 1 0).1.map
      DirEntry.name = [".", "..", "b", "a"] ∧
    (["a", "b"] : List String) ≠ ["b", "a"] := by
  decide

/-- C9 (amended): each variant has its own fixed order.  The pinned
variant emits no synthetic dot entries and lists object keys in ascending
lexicographic order and array indices in ascending numeric order; the
path-table variant prefixes "." and ".." and then lists the children in
document order (object keys) or ascending numeric order (array
indices). -/
theorem c9_readdir_order :
    (∀ (fields : List (String × JValue)) (offset : Nat),
      ((pinReaddirEntries (.obj fields) offset).map PinDirEntry.name).Pairwise
        (· ≤ ·)) ∧
    (∀ (elems : List JValue) (offset : Nat),
      (pinReaddirEntries (.arr elems) offset).map PinDirEntry.name =
        ((List.range elems.length).map natToString).drop offset) ∧
    (∀ (fs : MainFS) (ino : Nat) (path : List String) (v : JValue),
      lookupId fs.inodes ino = some path → resolvePath fs.json path = some v →
        (mainReaddir fs ino 0).1.map DirEntry.name = "." :: ".." :: childNames v) := by
  refine ⟨?_, ?_, ?_⟩
  · intro fields offset
    rw [pin_obj_names]
    have hfull : ((sortByKey fields).map Prod.fst).Pairwise
        (fun a b : String => a ≤ b) := by
      rw [List.pairwise_map]
      refine (sortByKey_pairwise fields).imp ?_
      intro a b h
      rw [String.le_iff_toList_le]
      exact le_of_not_lt h
    exact hfull.sublist (List.drop_sublist _ _)
  · intro elems offset
    exact pin_arr_names elems offset
  · intro fs ino path v hino hres
    have hstep : mainReaddir fs ino 0 =
        ((⟨ino, FileKind.directory, "."⟩ :: ⟨ino, FileKind.directory, ".."⟩ ::
            (allocChildren fs path (childNames v)).1).drop 0,
          (allocChildren fs path (childNames v)).2) := by
      rw [mainReaddir, hino]
      show (match resolvePath fs.json path with
          | none => ([], fs)
          | some v =>
            ((DirEntry.mk ino FileKind.directory "." ::
                DirEntry.mk ino FileKind.directory ".." ::
                (allocChildren fs path (childNames v)).1).drop 0,
              (allocChildren fs path (childNames v)).2)) = _
      rw [hres]
    rw [hstep, List.drop_zero, List.map_cons, List.map_cons, allocChildren_names]

theorem c9_readdir_order_witness :
    ((pinReaddirEntries (.obj [("b", .num 1), ("a", .num 2)]) 0).map
        PinDirEntry.name).Pairwise (· ≤ ·) ∧
    (pinReaddirEntries (.arr [.num 5, .num 6]) 0).map PinDirEntry.name =
      ((List.range ([JValue.num 5, JValue.num 6] : List JValue).length).map
        natToString).drop 0 ∧
    (mainReaddir (mainNew sampleDoc) 1 0).1.map DirEntry.name =
      "." :: ".." :: childNames sampleDoc :=
  ⟨c9_readdir_order.1 [("b", .num 1), ("a", .num 2)] 0,
    c9_readdir_order.2.1 [.num 5, .num 6] 0,
    c9_readdir_order.2.2 (mainNew sampleDoc) 1 [] sampleDoc rfl rfl⟩

/-- C10: confirmed.  Every child entry the path-table readdir pushes
carries FileType::RegularFile, so the only Directory-kinded entries in a
listing are the synthetic "." and ".."; getattr on the same container
node synthesizes kind Directory via create_attr. -/
theorem c10_readdir_kind :
    (∀ (fs : MainFS) (path ns : List String) (e : DirEntry),
      e ∈ (allocChildren fs path ns).1 → e.kind = .regularFile) ∧
    (∀ (fs : MainFS) (ino offset : Nat) (e : DirEntry),
      e ∈ (mainReaddir fs ino offset).1 → e.kind = .directory →
        e.name = "." ∨ e.name = "..") ∧
    (∀ fields, attrKind (.obj fields) = .directory) ∧
    (∀ elems, attrKind (.arr elems) = .directory) := by
  refine ⟨fun fs path ns e h => allocChildren_kinds ns fs path e h, ?_, fun _ => rfl,
    fun _ => rfl⟩
  intro fs ino offset e hmem hdir
  rw [mainReaddir] at hmem
  split at hmem
  · simp at hmem
  · split at hmem
    · simp at hmem
    · next v hres =>
      have hfull := (List.drop_sublist offset _).mem hmem
      rcases List.mem_cons.mp hfull with rfl | hfull2
      · exact Or.inl rfl
      · rcases List.mem_cons.mp hfull2 with rfl | hchild
        · exact Or.inr rfl
        · have hreg := allocChildren_kinds (childNames v) fs _ e hchild
          rw [hdir] at hreg
          exact FileKind.noConfusion hreg

theorem c10_readdir_kind_witness :
    ((⟨2, FileKind.regularFile, "a"⟩ : DirEntry) ∈
        (allocChildren (mainNew sampleDoc) [] ["a", "b"]).1) ∧
      ((⟨1, FileKind.directory, "."⟩ : DirEntry) ∈
        (mainReaddir (mainNew sampleDoc) 1 0).1) ∧
      ((⟨1, FileKind.directory, "."⟩ : DirEntry).name = "." ∨
        (⟨1, FileKind.directory, "."⟩ : DirEntry).name = "..") :=
  ⟨by decide, by decide,
    c10_readdir_kind.2.1 (mainNew sampleDoc) 1 0 ⟨1, .directory, "."⟩ (by decide) rfl⟩

end JsonFS
